import Mathlib

/-!
Verification development for the `loudness` batch loudness-measurement tool
(`src/main.rs`).  The Rust program is shallowly embedded: the in-memory
`HashMap<String, Measurement>` result cache is modelled as an association
list in iteration order, the external collaborators (symphonia decoder,
ebur128 accumulator, filesystem) are modelled as explicit per-file scripts
and oracle functions, and `main`'s orchestration is modelled as a function
from those inputs to a trace of observable events (output lines, measure
invocations, cache inserts, snapshot writes).  `f64` payloads are modelled
as rationals: the core never computes with them, it only stores, compares
and serializes them.

The file is organised as definitions first (data model, serialization,
Measurement Unit, Batch Coordinator, interleaving model of the shared
cache), then general lemmas, then the theorems about the specified
properties.
-/

namespace Loudness

/-! ## Data model -/

/-- `struct Measurement { loudness: f64, energy: f64 }` (main.rs:17-21).
The two `f64` fields are modelled as rationals; the program treats them as
opaque payloads. -/
structure Measurement where
  loudness : ℚ
  energy : ℚ
  deriving DecidableEq, Repr

/-- The in-memory cache `HashMap<String, Measurement>` modelled as an
association list in iteration order. -/
abbrev HMap := List (String × Measurement)

/-- `HashMap::contains_key` (main.rs:93, main.rs:100). -/
def containsKey (k : String) : HMap → Bool
  | [] => false
  | (k', _) :: t => k' = k || containsKey k t

/-- Lookup of a key's value in the modelled map. -/
def lookupKey (k : String) : HMap → Option Measurement
  | [] => none
  | (k', v) :: t => if k' = k then some v else lookupKey k t

/-- `HashMap::insert` (main.rs:104-106): unconditionally binds `k` to `v`,
replacing any existing binding for `k` (last writer wins). -/
def hmInsert (k : String) (v : Measurement) : HMap → HMap
  | [] => [(k, v)]
  | (k', v') :: t => if k' = k then (k, v) :: t else (k', v') :: hmInsert k v t

/-- The key set of the modelled map. -/
def hmKeys (m : HMap) : List String := m.map Prod.fst

/-- No key occurs twice: the invariant a `HashMap` maintains by
construction. -/
def uniqKeys (m : HMap) : Bool := (hmKeys m).Nodup

/-! ## Snapshot serialization (Result Cache persistence)

`save` (main.rs:129-134) serializes the map with `merde::json::to_string`
and the load path (main.rs:41-48) parses it back with
`merde::json::from_str`.  `merde` is an external crate whose source is not
part of this repository, so the document format is modelled from the spec:
"snapshot file is a textual structured-data document whose root is a
mapping from file key (string) to a `Measurement` record (two
floating-point fields)"; the concrete character syntax is declared out of
scope by the spec, so the document is modelled at token granularity. -/

/-- One lexical token of the persisted JSON document. -/
inductive Tok
  | lcur
  | rcur
  | comma
  | colon
  | strTok (s : String)
  | numTok (q : ℚ)
  deriving DecidableEq, Repr

/-- Modelled from the spec: the serialized form of one `Measurement`
record — a JSON object with the two fields `loudness` and `energy`. -/
def renderMeas (m : Measurement) : List Tok :=
  [.lcur, .strTok "loudness", .colon, .numTok m.loudness, .comma,
   .strTok "energy", .colon, .numTok m.energy, .rcur]

/-- Modelled from the spec: one `key : value` member of the root object. -/
def renderEntry (kv : String × Measurement) : List Tok :=
  .strTok kv.1 :: .colon :: renderMeas kv.2

/-- Modelled from the spec: the remaining members of the root object, each
preceded by a separating comma. -/
def renderMore : HMap → List Tok
  | [] => []
  | kv :: t => .comma :: (renderEntry kv ++ renderMore t)

/-- Modelled from the spec: `snapshot(M)` — the whole document for the
mapping `M` (cf. `save`, main.rs:129-134, which writes
`merde::json::to_string(d)`). -/
def snapshotToks : HMap → List Tok
  | [] => [.lcur, .rcur]
  | kv :: t => .lcur :: (renderEntry kv ++ (renderMore t ++ [.rcur]))

/-- Parse one `Measurement` object. -/
def parseMeas : List Tok → Option (Measurement × List Tok)
  | .lcur :: .strTok f1 :: .colon :: .numTok l :: .comma ::
      .strTok f2 :: .colon :: .numTok e :: .rcur :: rest =>
      if f1 = "loudness" ∧ f2 = "energy" then some (⟨l, e⟩, rest) else none
  | _ => none

/-- Parse one `key : value` member of the root object. -/
def parseEntry : List Tok → Option ((String × Measurement) × List Tok)
  | .strTok k :: .colon :: rest =>
      match parseMeas rest with
      | some (m, r) => some ((k, m), r)
      | none => none
  | _ => none

/-- Parse the rest of the root object after one member: either the closing
brace or a comma followed by further members.  Fuelled recursion; the fuel
only needs to dominate the number of members. -/
def parseMore : Nat → List Tok → Option (HMap × List Tok)
  | _, .rcur :: rest => some ([], rest)
  | Nat.succ f, .comma :: rest =>
      match parseEntry rest with
      | some (kv, r) =>
          match parseMore f r with
          | some (d, r') => some (kv :: d, r')
          | none => none
      | none => none
  | _, _ => none

/-- Parse the root object. -/
def parseTop (fuel : Nat) : List Tok → Option (HMap × List Tok)
  | .lcur :: .rcur :: rest => some ([], rest)
  | .lcur :: rest =>
      match parseEntry rest with
      | some (kv, r) =>
          match parseMore fuel r with
          | some (d, r') => some (kv :: d, r')
          | none => none
      | none => none
  | _ => none

/-- Modelled from the spec: `load(document)` — deserialize a whole
document back into a mapping (cf. main.rs:41-48, `merde::json::from_str`),
`none` on malformed content. -/
def loadToks (ts : List Tok) : Option HMap :=
  match parseTop ts.length ts with
  | some (d, []) => some d
  | _ => none

/-! ## Measurement Unit (`measure`, main.rs:136-267)

The external collaborators are modelled explicitly: the filesystem,
symphonia probe/decoder and the packet stream for one file are a
`FileScript` (what the collaborators answer when `measure` asks), and the
ebur128 accumulator is a pair of oracle functions of the list of sample
blocks fed to it so far (`loudness_global` and
`gating_block_count_and_energy`).  `EbuR128::new`, `add_frames_f32` and
the in-loop `loudness_global` are `expect`ed by the code; the external
library is modelled as not failing there. -/

/-- One decoded block of interleaved samples (`f32` modelled as ℚ). -/
abbrev Block := List ℚ

/-- Outcome of `decoder.decode(&packet)` for one packet (main.rs:213-247). -/
inductive DecodeRes
  | okBlock (samples : Block)
  | decodeErr
  | ioEof
  | ioOther
  | otherErr
  deriving DecidableEq, Repr

/-- One packet delivered by `format.next_packet()` (main.rs:206). -/
structure Packet where
  trackId : Nat
  res : DecodeRes
  deriving DecidableEq, Repr

/-- What the external collaborators answer for one file: the answers to
every fallible call `measure` makes, in program order.  `packets` is the
sequence of successful `next_packet()` results; after it is exhausted
`next_packet()` returns `Err`, which ends the `while let Ok` loop
(main.rs:206). -/
structure FileScript where
  openOk : Bool
  probeOk : Bool
  hasTrack : Bool
  trackId : Nat
  decoderOk : Bool
  channels : Option Nat
  sampleRate : Option Nat
  packets : List Packet
  deriving DecidableEq, Repr

/-- One line of program output.  Stderr diagnostics are tagged by the
`eprintln!` call site, stdout lines carry their contents. -/
inductive Line
  | failedToOpen
  | failedToProbe
  | noTracks
  | failedDecoderCreate
  | emptyPacket
  | decodeErrorLine
  | endOfStreamLine
  | nonEofError
  | otherErrorLine
  | skippingLine (i : Nat) (name : String)
  | resultLine (i : Nat) (name : String) (m : Measurement)
  | malformedOutfile
  | pathNotFound
  deriving DecidableEq, Repr

/-- The `Err(())`-sites of `measure`.  The Rust error type is `()`; the
tag records which return site produced the error (observable through
which diagnostic, if any, preceded it). -/
inductive FailSite
  | openFailed
  | probeFailed
  | noTracks
  | decoderFailed
  | noEnergy
  deriving DecidableEq, Repr

/-- Result of one `measure` invocation: `Ok`, `Err(())`, or a panic from
one of the `unwrap`/`expect` calls (main.rs:192-197). -/
inductive MRes
  | ok (m : Measurement)
  | fail (site : FailSite)
  | panicked
  deriving DecidableEq, Repr

/-- The decode loop (main.rs:206-249): lines it prints and the blocks fed
to the accumulator, in order.  Packets of other tracks are skipped; empty
blocks and recoverable decode errors are logged and skipped; an
end-of-stream or any other I/O error, or any other fatal error, breaks the
loop. -/
def runLoop (tid : Nat) : List Packet → List Block → List Line × List Block
  | [], acc => ([], acc)
  | p :: rest, acc =>
    if p.trackId ≠ tid then runLoop tid rest acc
    else
      match p.res with
      | .okBlock samples =>
          if samples.isEmpty then
            (.emptyPacket :: (runLoop tid rest acc).1, (runLoop tid rest acc).2)
          else runLoop tid rest (acc ++ [samples])
      | .decodeErr =>
          (.decodeErrorLine :: (runLoop tid rest acc).1, (runLoop tid rest acc).2)
      | .ioEof => ([.endOfStreamLine], acc)
      | .ioOther => ([.nonEofError], acc)
      | .otherErr => ([.otherErrorLine], acc)

/-- `measure` (main.rs:136-267).  `gl` is `loudness_global`, `gbce` is
`gating_block_count_and_energy`, both oracle functions of the blocks fed
so far.  Missing channel count or sample rate panics
(`unwrap`/`expect`, main.rs:192-197); a missing gated-energy pair returns
`Err(())` with no diagnostic (main.rs:255-257). -/
def measure (gl : List Block → ℚ) (gbce : List Block → Option (Nat × ℚ))
    (s : FileScript) : List Line × MRes :=
  if !s.openOk then ([.failedToOpen], .fail .openFailed)
  else if !s.probeOk then ([.failedToProbe], .fail .probeFailed)
  else if !s.hasTrack then ([.noTracks], .fail .noTracks)
  else if !s.decoderOk then ([.failedDecoderCreate], .fail .decoderFailed)
  else
    match s.channels with
    | none => ([], .panicked)
    | some _ =>
      match s.sampleRate with
      | none => ([], .panicked)
      | some _ =>
        let ls := (runLoop s.trackId s.packets []).1
        let acc := (runLoop s.trackId s.packets []).2
        match gbce acc with
        | none => (ls, .fail .noEnergy)
        | some (_, energy) => (ls, .ok ⟨gl acc, energy⟩)

/-- A packet that terminates the decode loop (main.rs:235-247): it belongs
to the selected track and decodes to an I/O error (end of stream or other)
or any other fatal error. -/
def breaksLoop (tid : Nat) (p : Packet) : Bool :=
  p.trackId == tid &&
    match p.res with
    | .ioEof => true
    | .ioOther => true
    | .otherErr => true
    | _ => false

/-- The blocks a packet sequence feeds to the accumulator when no packet
in it breaks the loop: the non-empty decoded blocks of the selected
track. -/
def blocksOf (tid : Nat) (pkts : List Packet) : List Block :=
  pkts.filterMap fun p =>
    if p.trackId = tid then
      match p.res with
      | .okBlock samples => if samples.isEmpty then none else some samples
      | _ => none
    else none

/-! ## Batch Coordinator (`main`, main.rs:26-127)

`main` is modelled as a function from the command-line/filesystem
situation to the list of its observable events: output lines, `measure`
invocations, applied `HashMap::insert`s, and `save` calls with the map
contents they write.  The rayon worker pool is modelled by its sequential
scheduling here (one worker per file, enumeration order); interleavings of
the shared-cache accesses are modelled separately below. -/

/-- One candidate file as the program sees it through `std::path`.
`fileStem = none` models `file_stem()` returning `None`;
`fileStem = some none` models a stem that is not valid UTF-8
(`to_str()` returns `None`); `fileStem = some (some s)` gives the cache
key `s` (main.rs:91). -/
structure MFile where
  fileStem : Option (Option String)
  extension : Option String
  isFile : Bool
  script : FileScript
  deriving DecidableEq, Repr

/-- `f.file_stem().unwrap().to_str().unwrap()` (main.rs:91): `none` means
the worker panics. -/
def fileKey (f : MFile) : Option String :=
  match f.fileStem with
  | some (some s) => some s
  | _ => none

/-- Observable events of a run. -/
inductive Ev
  | outLine (l : Line)
  | measureRun (i : Nat)
  | inserted (k : String) (m : Measurement)
  | savedSnap (d : HMap)
  deriving DecidableEq, Repr

/-- The worker closure body (main.rs:89-118) for the file at index `i`,
acting on cache state `st`.  Returns its events, the cache afterwards, and
whether it panicked.  `useCache` is whether an outfile was given
(`data.is_some()`). -/
def workerBody (gl : List Block → ℚ) (gbce : List Block → Option (Nat × ℚ))
    (useCache : Bool) (i : Nat) (f : MFile) (st : HMap) :
    List Ev × HMap × Bool :=
  match fileKey f with
  | none => ([], st, true)
  | some name =>
    if useCache && containsKey name st then
      ([.outLine (.skippingLine i name)], st, false)
    else
      let mls := (measure gl gbce f.script).1
      let evs0 := Ev.measureRun i :: mls.map Ev.outLine
      match (measure gl gbce f.script).2 with
      | .ok m =>
          if useCache then
            if containsKey name st then
              (evs0 ++ [.outLine (.skippingLine i name)], st, false)
            else
              let st' := hmInsert name m st
              let evs1 := evs0 ++ [.inserted name m]
              let evs2 := if i % 10 = 0 then evs1 ++ [.savedSnap st'] else evs1
              (evs2 ++ [.outLine (.resultLine i name m)], st', false)
          else
            (evs0 ++ [.outLine (.resultLine i name m)], st, false)
      | .fail _ => (evs0, st, false)
      | .panicked => (evs0, st, true)

/-- `files.par_iter().enumerate().for_each(...)` (main.rs:89), sequential
scheduling: process the files in order starting at index `i`; a panic in
a worker aborts the run. -/
def runFiles (gl : List Block → ℚ) (gbce : List Block → Option (Nat × ℚ))
    (useCache : Bool) : List MFile → Nat → HMap → List Ev × HMap × Bool
  | [], _, st => ([], st, false)
  | f :: rest, i, st =>
    if (workerBody gl gbce useCache i f st).2.2 then
      workerBody gl gbce useCache i f st
    else
      ((workerBody gl gbce useCache i f st).1 ++
        (runFiles gl gbce useCache rest (i + 1)
          (workerBody gl gbce useCache i f st).2.1).1,
       (runFiles gl gbce useCache rest (i + 1)
         (workerBody gl gbce useCache i f st).2.1).2)

/-- The `<file/directory>` argument as the filesystem answers for it:
absent (`!path.exists()`, main.rs:60), a directory with its direct
children (main.rs:64-76), or a single file (main.rs:77-80). -/
inductive InputPath
  | absent
  | dir (entries : List MFile)
  | filePath (f : MFile)
  deriving Repr

/-- Target File Set resolution (main.rs:59-80): `none` models the
path-not-found early return; a directory keeps exactly its direct children
that are files with extension `mp3`
(`path.is_file() && path.extension().is_some_and(|p| p == "mp3")`,
main.rs:72); any other existing path is taken as the single file. -/
def resolveFiles : InputPath → Option (List MFile)
  | .absent => none
  | .dir es => some (es.filter fun e => e.isFile && e.extension == some "mp3")
  | .filePath f => some [f]

/-- The `[outfile]` argument situation (main.rs:33-57): not given, given
but not yet existing, or existing with the result of parsing its content
(`none` = malformed). -/
inductive OutfileInit
  | noOutfile
  | newOutfile
  | existingOutfile (parsed : Option HMap)
  deriving Repr

/-- The cache `data` built by main.rs:33-57: `none` models the
malformed-outfile early return (main.rs:44-47); `some none` means no cache
(no outfile given); `some (some d)` is an active cache loaded with `d`. -/
def cacheOfInit : OutfileInit → Option (Option HMap)
  | .noOutfile => some none
  | .newOutfile => some (some [])
  | .existingOutfile none => none
  | .existingOutfile (some d) => some (some d)

/-- `main` (main.rs:26-127): load or initialize the cache, resolve the
Target File Set, process every file, and — when a cache is active and no
worker panicked — write one final snapshot (main.rs:120-124). -/
def runMain (gl : List Block → ℚ) (gbce : List Block → Option (Nat × ℚ))
    (init : OutfileInit) (inp : InputPath) : List Ev :=
  match cacheOfInit init with
  | none => [.outLine .malformedOutfile]
  | some cache =>
    match resolveFiles inp with
    | none => [.outLine .pathNotFound]
    | some files =>
      let (evs, fin, pan) := runFiles gl gbce cache.isSome files 0 (cache.getD [])
      if pan then evs
      else
        match cache with
        | some _ => evs ++ [.savedSnap fin]
        | none => evs

/-! ## Per-file output-line accounting

`main` prints the per-file outcome lines (`skipping` and the numeric
result, main.rs:94/101/113) on stdout; `measure` prints one diagnostic for
each of its pre-loop failures (main.rs:140/160/170/181).  The lines
printed from inside the decode loop (main.rs:229/233/238/240/245) are
per-packet / loop-termination diagnostics, not per-file outcome lines. -/

/-- Is this line a per-file outcome line (as opposed to a per-packet or
loop-termination diagnostic)? -/
def isPerFileLine : Line → Bool
  | .failedToOpen => true
  | .failedToProbe => true
  | .noTracks => true
  | .failedDecoderCreate => true
  | .skippingLine _ _ => true
  | .resultLine _ _ _ => true
  | _ => false

/-- Is this event a per-file outcome line? -/
def isPerFileLineEv : Ev → Bool
  | .outLine l => isPerFileLine l
  | _ => false

/-- Number of per-file outcome lines in an event trace. -/
def perFileLineCount (evs : List Ev) : Nat :=
  (evs.filter isPerFileLineEv).length

/-! ## Snapshot/insert ordering in a trace -/

/-- Every snapshot written in the trace contains key `k`. -/
def laterSnapsContain (k : String) : List Ev → Bool
  | [] => true
  | .savedSnap d :: rest => containsKey k d && laterSnapsContain k rest
  | _ :: rest => laterSnapsContain k rest

/-- Every snapshot written after an insert in the trace contains the
inserted key. -/
def snapshotsRespectInserts : List Ev → Bool
  | [] => true
  | .inserted k _ :: rest => laterSnapsContain k rest && snapshotsRespectInserts rest
  | _ :: rest => snapshotsRespectInserts rest

/-! ## Interleaving model of the shared-cache access protocol

Each worker's accesses to the shared `RwLock<HashMap>` are the atomic
steps (each step holds the lock for its whole duration): the first
`contains_key` under a read guard (main.rs:93), the second `contains_key`
under a read guard (main.rs:100), and the `insert` under the write guard
(main.rs:104-106).  The measurement itself is lock-free local work.  Two
workers are interleaved by an arbitrary schedule. -/

/-- Program counter of one worker's cache protocol (main.rs:92-107). -/
inductive WPc
  | start
  | measuring
  | preCheck2
  | preInsert
  | doneSkip
  | doneInserted
  deriving DecidableEq, Repr

/-- One atomic step of a worker holding key `k` and measured value `v`. -/
def wstep (k : String) (v : Measurement) (pc : WPc) (m : HMap) : WPc × HMap :=
  match pc with
  | .start => if containsKey k m then (.doneSkip, m) else (.measuring, m)
  | .measuring => (.preCheck2, m)
  | .preCheck2 => if containsKey k m then (.doneSkip, m) else (.preInsert, m)
  | .preInsert => (.doneInserted, hmInsert k v m)
  | .doneSkip => (.doneSkip, m)
  | .doneInserted => (.doneInserted, m)

/-- The two racing workers' keys and measured values. -/
structure RaceCfg where
  key0 : String
  key1 : String
  val0 : Measurement
  val1 : Measurement
  deriving DecidableEq, Repr

/-- Shared cache plus both workers' program counters. -/
structure RaceState where
  cache : HMap
  pc0 : WPc
  pc1 : WPc
  deriving DecidableEq, Repr

/-- Scheduler step: `false` runs worker 0, `true` runs worker 1. -/
def raceStep (cfg : RaceCfg) (s : RaceState) (w : Bool) : RaceState :=
  if w then
    let (pc', m') := wstep cfg.key1 cfg.val1 s.pc1 s.cache
    { cache := m', pc0 := s.pc0, pc1 := pc' }
  else
    let (pc', m') := wstep cfg.key0 cfg.val0 s.pc0 s.cache
    { cache := m', pc0 := pc', pc1 := s.pc1 }

/-- Run a schedule of worker steps. -/
def raceRun (cfg : RaceCfg) (s : RaceState) (sched : List Bool) : RaceState :=
  sched.foldl (raceStep cfg) s

/-- Both workers at their first instruction, cache as loaded. -/
def raceInit (m : HMap) : RaceState := ⟨m, .start, .start⟩

/-! ## Sample collaborators used to instantiate theorems -/

/-- A script on which every external call succeeds and the packet stream
is empty. -/
def okScript : FileScript :=
  ⟨true, true, true, 0, true, some 2, some 44100, []⟩

/-- A well-behaved file with stem `a` and the ok script. -/
def okFile : MFile := ⟨some (some "a"), some "mp3", true, okScript⟩

/-- A constant `loudness_global` oracle. -/
def glConst : List Block → ℚ := fun _ => -7

/-- A `gating_block_count_and_energy` oracle that always has gated data. -/
def gbSome : List Block → Option (Nat × ℚ) := fun _ => some (3, 5)

/-- A `gating_block_count_and_energy` oracle with no gated data. -/
def gbNone : List Block → Option (Nat × ℚ) := fun _ => none

/-! # Lemmas -/

theorem hmInsert_cons_self (k : String) (v v₀ : Measurement) (t : HMap) :
    hmInsert k v ((k, v₀) :: t) = (k, v) :: t := by
  simp [hmInsert]

theorem hmInsert_cons_ne (k k₀ : String) (v v₀ : Measurement) (t : HMap)
    (h : k₀ ≠ k) : hmInsert k v ((k₀, v₀) :: t) = (k₀, v₀) :: hmInsert k v t := by
  simp [hmInsert, h]

theorem containsKey_eq_isSome_lookupKey (k : String) (m : HMap) :
    containsKey k m = (lookupKey k m).isSome := by
  induction m with
  | nil => rfl
  | cons hd t ih =>
    obtain ⟨k', v⟩ := hd
    by_cases h : k' = k <;> simp [containsKey, lookupKey, h, ih]

theorem lookupKey_hmInsert_self (k : String) (v : Measurement) (m : HMap) :
    lookupKey k (hmInsert k v m) = some v := by
  induction m with
  | nil => simp [hmInsert, lookupKey]
  | cons hd t ih =>
    obtain ⟨k', v'⟩ := hd
    by_cases h : k' = k
    · simp [hmInsert, h, lookupKey]
    · simp [hmInsert, h, lookupKey, ih]

theorem lookupKey_hmInsert_ne (k k' : String) (v : Measurement) (m : HMap)
    (h : k' ≠ k) : lookupKey k' (hmInsert k v m) = lookupKey k' m := by
  induction m with
  | nil => simp [hmInsert, lookupKey, Ne.symm h]
  | cons hd t ih =>
    obtain ⟨k₀, v₀⟩ := hd
    by_cases h0 : k₀ = k
    · subst h0
      simp [hmInsert, lookupKey, Ne.symm h]
    · simp only [hmInsert, if_neg h0, lookupKey]
      by_cases h1 : k₀ = k'
      · simp [h1]
      · simp [h1, ih]

theorem hmKeys_hmInsert_of_not_contains (k : String) (v : Measurement)
    (m : HMap) (h : containsKey k m = false) :
    hmKeys (hmInsert k v m) = hmKeys m ++ [k] := by
  induction m with
  | nil => rfl
  | cons hd t ih =>
    obtain ⟨k', v'⟩ := hd
    simp only [containsKey, Bool.or_eq_false_iff, decide_eq_false_iff_not] at h
    have ht := ih h.2
    simp only [hmKeys] at ht
    simp [hmInsert, h.1, hmKeys, ht]

theorem mem_hmKeys_hmInsert (k k' : String) (v : Measurement) (m : HMap) :
    k' ∈ hmKeys (hmInsert k v m) ↔ k' = k ∨ k' ∈ hmKeys m := by
  induction m with
  | nil => simp [hmInsert, hmKeys]
  | cons hd t ih =>
    obtain ⟨k₀, v₀⟩ := hd
    by_cases h0 : k₀ = k
    · subst h0
      rw [hmInsert_cons_self]
      simp only [hmKeys, List.map_cons, List.mem_cons]
      tauto
    · rw [hmInsert_cons_ne k k₀ v v₀ t h0]
      have ht := ih
      simp only [hmKeys] at ht
      simp only [hmKeys, List.map_cons, List.mem_cons]
      rw [ht]
      tauto

theorem uniqKeys_hmInsert (k : String) (v : Measurement) (m : HMap)
    (h : uniqKeys m = true) : uniqKeys (hmInsert k v m) = true := by
  induction m with
  | nil => simp [hmInsert, uniqKeys, hmKeys]
  | cons hd t ih =>
    obtain ⟨k₀, v₀⟩ := hd
    simp only [uniqKeys, hmKeys, List.map_cons, List.nodup_cons,
      decide_eq_true_eq] at h
    by_cases h0 : k₀ = k
    · subst h0
      rw [hmInsert_cons_self]
      simp only [uniqKeys, hmKeys, List.map_cons, List.nodup_cons,
        decide_eq_true_eq]
      exact h
    · have ht : uniqKeys (hmInsert k v t) = true := by
        apply ih
        simp only [uniqKeys, decide_eq_true_eq]
        exact h.2
      rw [hmInsert_cons_ne k k₀ v v₀ t h0]
      simp only [uniqKeys, hmKeys, List.map_cons, List.nodup_cons,
        decide_eq_true_eq]
      constructor
      · intro hmem
        rcases (mem_hmKeys_hmInsert k k₀ v t).1 (by simpa [hmKeys] using hmem)
          with rfl | hmem'
        · exact h0 rfl
        · exact h.1 (by simpa [hmKeys] using hmem')
      · simpa [uniqKeys, hmKeys] using ht

theorem containsKey_hmInsert_of_contains (k k' : String) (v : Measurement)
    (m : HMap) (h : containsKey k' m = true) :
    containsKey k' (hmInsert k v m) = true := by
  by_cases hk : k' = k
  · subst hk
    rw [containsKey_eq_isSome_lookupKey, lookupKey_hmInsert_self]
    rfl
  · rw [containsKey_eq_isSome_lookupKey, lookupKey_hmInsert_ne k k' v m hk,
      ← containsKey_eq_isSome_lookupKey]
    exact h

theorem containsKey_hmInsert_self (k : String) (v : Measurement) (m : HMap) :
    containsKey k (hmInsert k v m) = true := by
  rw [containsKey_eq_isSome_lookupKey, lookupKey_hmInsert_self]
  rfl

theorem parseMeas_renderMeas (m : Measurement) (rest : List Tok) :
    parseMeas (renderMeas m ++ rest) = some (m, rest) := by
  obtain ⟨l, e⟩ := m
  simp [renderMeas, parseMeas]

theorem parseEntry_renderEntry (kv : String × Measurement) (rest : List Tok) :
    parseEntry (renderEntry kv ++ rest) = some (kv, rest) := by
  obtain ⟨k, m⟩ := kv
  simp [renderEntry, parseEntry, parseMeas_renderMeas]

theorem parseMore_renderMore (t : HMap) (rest : List Tok) (f : Nat)
    (hf : t.length ≤ f) :
    parseMore f (renderMore t ++ (.rcur :: rest)) = some (t, rest) := by
  induction t generalizing f rest with
  | nil => cases f <;> simp [renderMore, parseMore]
  | cons kv t' ih =>
    cases f with
    | zero => simp at hf
    | succ f' =>
      have hf' : t'.length ≤ f' := by simpa using hf
      simp only [renderMore, List.cons_append, parseMore, List.append_eq,
        List.append_assoc, parseEntry_renderEntry, ih rest f' hf']

theorem parseTop_snapshotToks (d : HMap) (rest : List Tok) (f : Nat)
    (hf : d.length ≤ f + 1) :
    parseTop f (snapshotToks d ++ rest) = some (d, rest) := by
  cases d with
  | nil => simp [snapshotToks, parseTop]
  | cons kv t =>
    obtain ⟨k, m⟩ := kv
    obtain ⟨l, e⟩ := m
    have hf' : t.length ≤ f := by simpa using hf
    have hmore := parseMore_renderMore t rest f hf'
    simp [snapshotToks, renderEntry, renderMeas, parseTop, parseEntry,
      parseMeas, hmore]

theorem renderMore_length_ge (t : HMap) : t.length ≤ (renderMore t).length := by
  induction t with
  | nil => simp [renderMore]
  | cons kv t' ih =>
    simp only [renderMore, renderEntry, renderMeas, List.length_cons,
      List.cons_append, List.length_append]
    omega

theorem snapshotToks_length_ge (d : HMap) :
    d.length ≤ (snapshotToks d).length := by
  cases d with
  | nil => simp [snapshotToks]
  | cons kv t =>
    have := renderMore_length_ge t
    simp only [snapshotToks, renderEntry, renderMeas, List.length_cons,
      List.cons_append, List.length_append, List.length_singleton]
    omega

theorem uniqKeys_wstep (k : String) (v : Measurement) (pc : WPc) (m : HMap)
    (h : uniqKeys m = true) : uniqKeys (wstep k v pc m).2 = true := by
  cases pc with
  | start => by_cases hc : containsKey k m <;> simp [wstep, hc, h]
  | measuring => simpa [wstep] using h
  | preCheck2 => by_cases hc : containsKey k m <;> simp [wstep, hc, h]
  | preInsert => simpa [wstep] using uniqKeys_hmInsert k v m h
  | doneSkip => simpa [wstep] using h
  | doneInserted => simpa [wstep] using h

theorem uniqKeys_raceStep (cfg : RaceCfg) (s : RaceState) (w : Bool)
    (h : uniqKeys s.cache = true) : uniqKeys (raceStep cfg s w).cache = true := by
  cases w <;> simp [raceStep, uniqKeys_wstep, h]

theorem runLoop_lines_not_perFile (tid : Nat) (pkts : List Packet) :
    ∀ acc, ∀ l ∈ (runLoop tid pkts acc).1, isPerFileLine l = false := by
  induction pkts with
  | nil => intro acc l hl; simp [runLoop] at hl
  | cons p rest ih =>
    intro acc l hl
    by_cases ht : p.trackId ≠ tid
    · rw [runLoop, if_pos ht] at hl
      exact ih acc l hl
    · cases hres : p.res with
      | okBlock samples =>
          by_cases he : samples.isEmpty
          · simp only [runLoop, if_neg ht, hres, if_pos he, List.mem_cons] at hl
            rcases hl with rfl | hl'
            · rfl
            · exact ih acc l hl'
          · simp only [runLoop, if_neg ht, hres, if_neg he] at hl
            exact ih _ l hl
      | decodeErr =>
          simp only [runLoop, if_neg ht, hres, List.mem_cons] at hl
          rcases hl with rfl | hl'
          · rfl
          · exact ih acc l hl'
      | ioEof =>
          simp only [runLoop, if_neg ht, hres, List.mem_singleton] at hl
          subst hl; rfl
      | ioOther =>
          simp only [runLoop, if_neg ht, hres, List.mem_singleton] at hl
          subst hl; rfl
      | otherErr =>
          simp only [runLoop, if_neg ht, hres, List.mem_singleton] at hl
          subst hl; rfl

theorem runLoop_acc_no_break (tid : Nat) (pre : List Packet) :
    ∀ rest acc, (∀ q ∈ pre, breaksLoop tid q = false) →
      (runLoop tid (pre ++ rest) acc).2 =
        (runLoop tid rest (acc ++ blocksOf tid pre)).2 := by
  induction pre with
  | nil => intro rest acc _; simp [blocksOf]
  | cons q pre' ih =>
    intro rest acc hpre
    have hq := hpre q (List.mem_cons_self _ _)
    have hpre' : ∀ r ∈ pre', breaksLoop tid r = false :=
      fun r hr => hpre r (List.mem_cons_of_mem _ hr)
    by_cases ht : q.trackId = tid
    · cases hres : q.res with
      | okBlock samples =>
          by_cases he : samples.isEmpty
          · rw [List.cons_append, runLoop, if_neg (not_not_intro ht)]
            simp only [hres, if_pos he]
            have he' : samples = [] := List.isEmpty_iff.mp he
            rw [ih rest acc hpre']
            simp [blocksOf, List.filterMap_cons, ht, hres, he']
          · rw [List.cons_append, runLoop, if_neg (not_not_intro ht)]
            simp only [hres, if_neg he]
            have he' : ¬samples = [] := by simpa [List.isEmpty_iff] using he
            rw [ih rest (acc ++ [samples]) hpre']
            simp [blocksOf, List.filterMap_cons, ht, hres, he',
              List.append_assoc]
      | decodeErr =>
          rw [List.cons_append, runLoop, if_neg (not_not_intro ht)]
          simp only [hres]
          rw [ih rest acc hpre']
          simp [blocksOf, List.filterMap_cons, ht, hres]
      | ioEof => simp [breaksLoop, ht, hres] at hq
      | ioOther => simp [breaksLoop, ht, hres] at hq
      | otherErr => simp [breaksLoop, ht, hres] at hq
    · rw [List.cons_append, runLoop, if_pos ht]
      rw [ih rest acc hpre']
      simp [blocksOf, List.filterMap_cons, ht]

theorem runLoop_break_at (tid : Nat) (p : Packet) (post : List Packet)
    (acc : List Block) (hp : p.trackId = tid)
    (hres : p.res = .ioOther ∨ p.res = .otherErr) :
    (runLoop tid (p :: post) acc).2 = acc := by
  rcases hres with h | h <;>
  · rw [runLoop, if_neg (not_not_intro hp)]
    simp [h]

theorem measure_perFile_lines (gl : List Block → ℚ)
    (gbce : List Block → Option (Nat × ℚ)) (s : FileScript) :
    ((measure gl gbce s).1.filter isPerFileLine).length =
      match (measure gl gbce s).2 with
      | .ok _ => 0
      | .fail .noEnergy => 0
      | .fail _ => 1
      | .panicked => 0 := by
  cases ho : s.openOk with
  | false => simp [measure, ho, isPerFileLine]
  | true =>
  cases hp : s.probeOk with
  | false => simp [measure, ho, hp, isPerFileLine]
  | true =>
  cases htr : s.hasTrack with
  | false => simp [measure, ho, hp, htr, isPerFileLine]
  | true =>
  cases hd : s.decoderOk with
  | false => simp [measure, ho, hp, htr, hd, isPerFileLine]
  | true =>
  cases hch : s.channels with
  | none => simp [measure, ho, hp, htr, hd, hch]
  | some c =>
  cases hr : s.sampleRate with
  | none => simp [measure, ho, hp, htr, hd, hch, hr]
  | some r =>
  have hfilter : (runLoop s.trackId s.packets []).1.filter isPerFileLine = [] := by
    rw [List.filter_eq_nil_iff]
    intro l hl
    simp [runLoop_lines_not_perFile s.trackId s.packets [] l hl]
  cases hg : gbce (runLoop s.trackId s.packets []).2 with
  | none => simp [measure, ho, hp, htr, hd, hch, hr, hg, hfilter]
  | some ce =>
    obtain ⟨c2, e⟩ := ce
    simp [measure, ho, hp, htr, hd, hch, hr, hg, hfilter]

theorem perFileLineCount_append (a b : List Ev) :
    perFileLineCount (a ++ b) = perFileLineCount a + perFileLineCount b := by
  simp [perFileLineCount, List.filter_append]

theorem perFileLineCount_map_outLine (ls : List Line) :
    perFileLineCount (ls.map Ev.outLine) = (ls.filter isPerFileLine).length := by
  induction ls with
  | nil => rfl
  | cons l t ih =>
    cases h : isPerFileLine l <;>
      simp [perFileLineCount, isPerFileLineEv, List.filter_cons, h] at ih ⊢ <;>
      simp [ih]

theorem workerBody_lookup_mono (gl : List Block → ℚ)
    (gbce : List Block → Option (Nat × ℚ)) (useCache : Bool) (i : Nat)
    (f : MFile) (st : HMap) (k : String) (m : Measurement)
    (h : lookupKey k st = some m) :
    lookupKey k (workerBody gl gbce useCache i f st).2.1 = some m := by
  cases hk : fileKey f with
  | none => simpa [workerBody, hk] using h
  | some name =>
    by_cases hc : useCache && containsKey name st
    · simpa [workerBody, hk, hc] using h
    · cases hm : (measure gl gbce f.script).2 with
      | ok mv =>
        cases hu : useCache with
        | false => simpa [workerBody, hk, hc, hm, hu] using h
        | true =>
          by_cases hc2 : containsKey name st
          · simpa [workerBody, hk, hc, hm, hu, hc2] using h
          · have hne : k ≠ name := by
              intro heq
              subst heq
              rw [containsKey_eq_isSome_lookupKey, h] at hc2
              simp at hc2
            have hl : lookupKey k (hmInsert name mv st) = some m := by
              rw [lookupKey_hmInsert_ne name k mv st hne]; exact h
            simpa [workerBody, hk, hc, hm, hu, hc2] using hl
      | fail site => simpa [workerBody, hk, hc, hm] using h
      | panicked => simpa [workerBody, hk, hc, hm] using h

theorem workerBody_contains_mono (gl : List Block → ℚ)
    (gbce : List Block → Option (Nat × ℚ)) (useCache : Bool) (i : Nat)
    (f : MFile) (st : HMap) (k : String)
    (h : containsKey k st = true) :
    containsKey k (workerBody gl gbce useCache i f st).2.1 = true := by
  rw [containsKey_eq_isSome_lookupKey] at h ⊢
  rcases Option.isSome_iff_exists.mp h with ⟨m, hm⟩
  rw [workerBody_lookup_mono gl gbce useCache i f st k m hm]
  rfl

theorem workerBody_inserted_mem (gl : List Block → ℚ)
    (gbce : List Block → Option (Nat × ℚ)) (useCache : Bool) (i : Nat)
    (f : MFile) (st : HMap) (k : String) (m : Measurement)
    (h : Ev.inserted k m ∈ (workerBody gl gbce useCache i f st).1) :
    fileKey f = some k ∧ containsKey k st = false ∧
      (workerBody gl gbce useCache i f st).2.1 = hmInsert k m st := by
  cases hk : fileKey f with
  | none => simp [workerBody, hk] at h
  | some name =>
    by_cases hc : useCache && containsKey name st
    · simp [workerBody, hk, hc] at h
    · cases hm : (measure gl gbce f.script).2 with
      | ok mv =>
        cases hu : useCache with
        | false => simp [workerBody, hk, hc, hm, hu] at h
        | true =>
          by_cases hc2 : containsKey name st
          · simp [workerBody, hk, hc, hm, hu, hc2] at h
          · by_cases hi : i % 10 = 0 <;>
            · simp [workerBody, hk, hc, hm, hu, hc2, hi] at h
              obtain ⟨rfl, rfl⟩ := h
              refine ⟨rfl, by simpa using hc2, ?_⟩
              simp [workerBody, hk, hc, hm, hu, hc2]
      | fail site => simp [workerBody, hk, hc, hm] at h
      | panicked => simp [workerBody, hk, hc, hm] at h

theorem workerBody_saved_mem (gl : List Block → ℚ)
    (gbce : List Block → Option (Nat × ℚ)) (useCache : Bool) (i : Nat)
    (f : MFile) (st : HMap) (d : HMap)
    (h : Ev.savedSnap d ∈ (workerBody gl gbce useCache i f st).1) :
    d = (workerBody gl gbce useCache i f st).2.1 := by
  cases hk : fileKey f with
  | none => simp [workerBody, hk] at h
  | some name =>
    by_cases hc : useCache && containsKey name st
    · simp [workerBody, hk, hc] at h
    · cases hm : (measure gl gbce f.script).2 with
      | ok mv =>
        cases hu : useCache with
        | false => simp [workerBody, hk, hc, hm, hu] at h
        | true =>
          by_cases hc2 : containsKey name st
          · simp [workerBody, hk, hc, hm, hu, hc2] at h
          · by_cases hi : i % 10 = 0
            · simp [workerBody, hk, hc, hm, hu, hc2, hi] at h
              subst h
              simp [workerBody, hk, hc, hm, hu, hc2]
            · simp [workerBody, hk, hc, hm, hu, hc2, hi] at h
      | fail site => simp [workerBody, hk, hc, hm] at h
      | panicked => simp [workerBody, hk, hc, hm] at h

theorem runFiles_lookup_mono (gl : List Block → ℚ)
    (gbce : List Block → Option (Nat × ℚ)) (useCache : Bool)
    (files : List MFile) :
    ∀ i st k m, lookupKey k st = some m →
      lookupKey k (runFiles gl gbce useCache files i st).2.1 = some m := by
  induction files with
  | nil => intro i st k m h; simpa [runFiles] using h
  | cons f rest ih =>
    intro i st k m h
    rcases hw : workerBody gl gbce useCache i f st with ⟨evs, st', pan⟩
    have h' : lookupKey k st' = some m := by
      have hmono := workerBody_lookup_mono gl gbce useCache i f st k m h
      rwa [hw] at hmono
    cases pan with
    | true => simpa [runFiles, hw] using h'
    | false =>
      have hrest := ih (i + 1) st' k m h'
      simpa [runFiles, hw] using hrest

theorem runFiles_contains_mono (gl : List Block → ℚ)
    (gbce : List Block → Option (Nat × ℚ)) (useCache : Bool)
    (files : List MFile) :
    ∀ i st k, containsKey k st = true →
      containsKey k (runFiles gl gbce useCache files i st).2.1 = true := by
  intro i st k h
  rw [containsKey_eq_isSome_lookupKey] at h ⊢
  rcases Option.isSome_iff_exists.mp h with ⟨m, hm⟩
  rw [runFiles_lookup_mono gl gbce useCache files i st k m hm]
  rfl

theorem runFiles_inserted (gl : List Block → ℚ)
    (gbce : List Block → Option (Nat × ℚ)) (useCache : Bool)
    (files : List MFile) :
    ∀ i st k m, Ev.inserted k m ∈ (runFiles gl gbce useCache files i st).1 →
      lookupKey k (runFiles gl gbce useCache files i st).2.1 = some m := by
  induction files with
  | nil => intro i st k m h; simp [runFiles] at h
  | cons f rest ih =>
    intro i st k m h
    rcases hw : workerBody gl gbce useCache i f st with ⟨evs, st', pan⟩
    cases pan with
    | true =>
      simp only [runFiles, hw] at h ⊢
      have hins := workerBody_inserted_mem gl gbce useCache i f st k m
        (by rw [hw]; exact h)
      have hst' : st' = hmInsert k m st := by
        have h22 := hins.2.2
        rw [hw] at h22
        exact h22
      rw [hst']
      exact lookupKey_hmInsert_self k m st
    | false =>
      simp only [runFiles, hw] at h ⊢
      rcases List.mem_append.mp h with h | h
      · have hins := workerBody_inserted_mem gl gbce useCache i f st k m
          (by rw [hw]; exact h)
        have hst' : st' = hmInsert k m st := by
          have h22 := hins.2.2
          rw [hw] at h22
          exact h22
        have hl : lookupKey k st' = some m := by
          rw [hst']
          exact lookupKey_hmInsert_self k m st
        exact runFiles_lookup_mono gl gbce useCache rest (i + 1) st' k m hl
      · exact ih (i + 1) st' k m h

theorem runFiles_saved_pre_keys (gl : List Block → ℚ)
    (gbce : List Block → Option (Nat × ℚ)) (useCache : Bool)
    (files : List MFile) :
    ∀ i st k d, Ev.savedSnap d ∈ (runFiles gl gbce useCache files i st).1 →
      containsKey k st = true → containsKey k d = true := by
  induction files with
  | nil => intro i st k d h _; simp [runFiles] at h
  | cons f rest ih =>
    intro i st k d h hk
    rcases hw : workerBody gl gbce useCache i f st with ⟨evs, st', pan⟩
    have hmono : containsKey k st' = true := by
      have := workerBody_contains_mono gl gbce useCache i f st k hk
      rwa [hw] at this
    cases pan with
    | true =>
      simp only [runFiles, hw] at h
      have hd := workerBody_saved_mem gl gbce useCache i f st d
        (by rw [hw]; exact h)
      have hd' : d = st' := by rw [hw] at hd; exact hd
      rw [hd']
      exact hmono
    | false =>
      simp only [runFiles, hw] at h
      rcases List.mem_append.mp h with h | h
      · have hd := workerBody_saved_mem gl gbce useCache i f st d
          (by rw [hw]; exact h)
        have hd' : d = st' := by rw [hw] at hd; exact hd
        rw [hd']
        exact hmono
      · exact ih (i + 1) st' k d h hmono

theorem laterSnapsContain_append (k : String) (a b : List Ev) :
    laterSnapsContain k (a ++ b) =
      (laterSnapsContain k a && laterSnapsContain k b) := by
  induction a with
  | nil => simp [laterSnapsContain]
  | cons e rest ih =>
    cases e <;> simp [laterSnapsContain, ih, Bool.and_assoc]

theorem laterSnapsContain_of_snaps_contain (k : String) (evs : List Ev)
    (h : ∀ d, Ev.savedSnap d ∈ evs → containsKey k d = true) :
    laterSnapsContain k evs = true := by
  induction evs with
  | nil => rfl
  | cons e rest ih =>
    have hr : ∀ d, Ev.savedSnap d ∈ rest → containsKey k d = true :=
      fun d hd => h d (List.mem_cons_of_mem _ hd)
    cases e with
    | savedSnap d =>
        simp [laterSnapsContain, h d (List.mem_cons_self _ _), ih hr]
    | outLine l => simpa [laterSnapsContain] using ih hr
    | measureRun j => simpa [laterSnapsContain] using ih hr
    | inserted k' m => simpa [laterSnapsContain] using ih hr

theorem laterSnapsContain_saved_mem (k : String) (evs : List Ev) (d : HMap)
    (h : laterSnapsContain k evs = true) (hd : Ev.savedSnap d ∈ evs) :
    containsKey k d = true := by
  induction evs with
  | nil => simp at hd
  | cons e rest ih =>
    cases e with
    | savedSnap d' =>
        simp only [laterSnapsContain, Bool.and_eq_true] at h
        rcases List.mem_cons.mp hd with heq | hd'
        · cases heq
          exact h.1
        · exact ih h.2 hd'
    | outLine l =>
        rcases List.mem_cons.mp hd with heq | hd'
        · cases heq
        · exact ih (by simpa [laterSnapsContain] using h) hd'
    | measureRun j =>
        rcases List.mem_cons.mp hd with heq | hd'
        · cases heq
        · exact ih (by simpa [laterSnapsContain] using h) hd'
    | inserted k' m =>
        rcases List.mem_cons.mp hd with heq | hd'
        · cases heq
        · exact ih (by simpa [laterSnapsContain] using h) hd'

theorem snapshotsRespect_outLines (mls : List Line) (rest : List Ev) :
    snapshotsRespectInserts (mls.map Ev.outLine ++ rest) =
      snapshotsRespectInserts rest := by
  induction mls with
  | nil => rfl
  | cons l t ih => simpa [snapshotsRespectInserts] using ih

theorem snapshotsRespect_outLines_nil (mls : List Line) :
    snapshotsRespectInserts (mls.map Ev.outLine) = true := by
  simpa using snapshotsRespect_outLines mls []

theorem laterSnaps_outLines (k : String) (mls : List Line) (rest : List Ev) :
    laterSnapsContain k (mls.map Ev.outLine ++ rest) =
      laterSnapsContain k rest := by
  induction mls with
  | nil => rfl
  | cons l t ih => simpa [laterSnapsContain] using ih

theorem snapshotsRespectInserts_append (b : List Ev)
    (hb : snapshotsRespectInserts b = true) :
    ∀ a, snapshotsRespectInserts a = true →
      (∀ k m, Ev.inserted k m ∈ a → laterSnapsContain k b = true) →
      snapshotsRespectInserts (a ++ b) = true := by
  intro a
  induction a with
  | nil => intro _ _; simpa using hb
  | cons e rest ih =>
    intro ha hab
    have habr : ∀ k m, Ev.inserted k m ∈ rest → laterSnapsContain k b = true :=
      fun k m hm => hab k m (List.mem_cons_of_mem _ hm)
    cases e with
    | inserted k m =>
        simp only [snapshotsRespectInserts, Bool.and_eq_true] at ha
        simp only [List.cons_append, snapshotsRespectInserts, Bool.and_eq_true]
        refine ⟨?_, ih ha.2 habr⟩
        rw [List.append_eq, laterSnapsContain_append]
        simp [ha.1, hab k m (List.mem_cons_self _ _)]
    | outLine l =>
        simp only [snapshotsRespectInserts] at ha
        simp only [List.cons_append, snapshotsRespectInserts]
        exact ih ha habr
    | measureRun j =>
        simp only [snapshotsRespectInserts] at ha
        simp only [List.cons_append, snapshotsRespectInserts]
        exact ih ha habr
    | savedSnap d =>
        simp only [snapshotsRespectInserts] at ha
        simp only [List.cons_append, snapshotsRespectInserts]
        exact ih ha habr

theorem workerBody_respects (gl : List Block → ℚ)
    (gbce : List Block → Option (Nat × ℚ)) (useCache : Bool) (i : Nat)
    (f : MFile) (st : HMap) :
    snapshotsRespectInserts (workerBody gl gbce useCache i f st).1 = true := by
  cases hk : fileKey f with
  | none => simp [workerBody, hk, snapshotsRespectInserts]
  | some name =>
    by_cases hc : useCache && containsKey name st
    · simp [workerBody, hk, hc, snapshotsRespectInserts]
    · cases hm : (measure gl gbce f.script).2 with
      | ok mv =>
        cases hu : useCache with
        | false =>
          simp [workerBody, hk, hc, hm, hu, snapshotsRespectInserts,
            snapshotsRespect_outLines, snapshotsRespect_outLines_nil,
            laterSnaps_outLines]
        | true =>
          by_cases hc2 : containsKey name st
          · simp [workerBody, hk, hc, hm, hu, hc2, snapshotsRespectInserts,
              snapshotsRespect_outLines, snapshotsRespect_outLines_nil]
          · by_cases hi : i % 10 = 0 <;>
              simp [workerBody, hk, hc, hm, hu, hc2, hi,
                snapshotsRespectInserts, laterSnapsContain,
                snapshotsRespect_outLines, snapshotsRespect_outLines_nil,
                laterSnaps_outLines, containsKey_hmInsert_self]
      | fail site =>
          simp [workerBody, hk, hc, hm, snapshotsRespectInserts,
            snapshotsRespect_outLines, snapshotsRespect_outLines_nil]
      | panicked =>
          simp [workerBody, hk, hc, hm, snapshotsRespectInserts,
            snapshotsRespect_outLines, snapshotsRespect_outLines_nil]

theorem workerBody_laterSnaps (gl : List Block → ℚ)
    (gbce : List Block → Option (Nat × ℚ)) (useCache : Bool) (i : Nat)
    (f : MFile) (st : HMap) (k : String)
    (h : containsKey k (workerBody gl gbce useCache i f st).2.1 = true) :
    laterSnapsContain k (workerBody gl gbce useCache i f st).1 = true :=
  laterSnapsContain_of_snaps_contain k _ (fun d hd => by
    have hds := workerBody_saved_mem gl gbce useCache i f st d hd
    rw [hds]
    exact h)

theorem runFiles_laterSnaps (gl : List Block → ℚ)
    (gbce : List Block → Option (Nat × ℚ)) (useCache : Bool)
    (files : List MFile) (i : Nat) (st : HMap) (k : String)
    (h : containsKey k st = true) :
    laterSnapsContain k (runFiles gl gbce useCache files i st).1 = true :=
  laterSnapsContain_of_snaps_contain k _ (fun d hd =>
    runFiles_saved_pre_keys gl gbce useCache files i st k d hd h)

theorem runFiles_respects (gl : List Block → ℚ)
    (gbce : List Block → Option (Nat × ℚ)) (useCache : Bool)
    (files : List MFile) :
    ∀ i st, snapshotsRespectInserts (runFiles gl gbce useCache files i st).1 = true := by
  induction files with
  | nil => intro i st; rfl
  | cons f rest ih =>
    intro i st
    rcases hw : workerBody gl gbce useCache i f st with ⟨evs, st', pan⟩
    cases pan with
    | true =>
      simp only [runFiles, hw]
      have hres := workerBody_respects gl gbce useCache i f st
      rwa [hw] at hres
    | false =>
      simp only [runFiles, hw]
      apply snapshotsRespectInserts_append _ (ih (i + 1) st')
      · have hres := workerBody_respects gl gbce useCache i f st
        rwa [hw] at hres
      · intro k m hm
        have hins := workerBody_inserted_mem gl gbce useCache i f st k m
          (by rw [hw]; exact hm)
        have hst' : st' = hmInsert k m st := by
          have h22 := hins.2.2
          rw [hw] at h22
          exact h22
        have hck : containsKey k st' = true := by
          rw [hst']
          exact containsKey_hmInsert_self k m st
        exact runFiles_laterSnaps gl gbce useCache rest (i + 1) st' k hck

/-! # Claim theorems -/

/-- C2: deserializing the result of serializing any mapping `M` (load
after snapshot) yields a mapping equal to `M`, including for the empty
mapping. -/
theorem snapshot_load_roundtrip (d : HMap) :
    loadToks (snapshotToks d) = some d := by
  have h1 : d.length ≤ (snapshotToks d).length + 1 :=
    le_trans (snapshotToks_length_ge d) (Nat.le_succ _)
  have h2 := parseTop_snapshotToks d [] (snapshotToks d).length h1
  rw [List.append_nil] at h2
  simp [loadToks, h2]

/-- C3: if the snapshot file exists but its content is malformed, the run
aborts having performed no measurement and written no snapshot (the file
is never overwritten): the only event is the malformed-outfile
diagnostic. -/
theorem malformed_snapshot_aborts (gl : List Block → ℚ)
    (gbce : List Block → Option (Nat × ℚ)) (inp : InputPath) :
    runMain gl gbce (.existingOutfile none) inp =
        [Ev.outLine .malformedOutfile] ∧
    (∀ i, Ev.measureRun i ∉ runMain gl gbce (.existingOutfile none) inp) ∧
    (∀ d, Ev.savedSnap d ∉ runMain gl gbce (.existingOutfile none) inp) := by
  refine ⟨rfl, ?_, ?_⟩ <;> intro x <;> simp [runMain, cacheOfInit]

/-- C1 counterexample: the insert path is check-then-insert, not an atomic
insert-if-absent, so there is a schedule of two workers racing on the same
absent key in which both inserts apply: after seven steps worker 0's value
is in the cache, and the eighth step (worker 1's insert) overwrites it,
leaving both workers in the inserted state.  This refutes both
"exactly one insert applies" and "once present, never overwritten". -/
theorem race_overwrite_cex :
    (raceRun ⟨"k", "k", ⟨0, 0⟩, ⟨1, 1⟩⟩ (raceInit [])
        [false, true, false, true, false, true, false]).cache =
      [("k", ⟨0, 0⟩)] ∧
    raceRun ⟨"k", "k", ⟨0, 0⟩, ⟨1, 1⟩⟩ (raceInit [])
        [false, true, false, true, false, true, false, true] =
      ⟨[("k", ⟨1, 1⟩)], .doneInserted, .doneInserted⟩ :=
  ⟨rfl, rfl⟩

/-- C1 (amended): under concurrent workers racing on the same absent key,
both inserts may apply and the later one overwrites the earlier
(last writer wins, see `race_overwrite_cex`); the cache does still never
hold two different values for one key at once: every schedule preserves
the key-uniqueness invariant of the shared map. -/
theorem race_cache_unique_keys (cfg : RaceCfg) (sched : List Bool)
    (s : RaceState) (h : uniqKeys s.cache = true) :
    uniqKeys (raceRun cfg s sched).cache = true := by
  induction sched generalizing s with
  | nil => simpa [raceRun] using h
  | cons w rest ih =>
    exact ih (raceStep cfg s w) (uniqKeys_raceStep cfg s w h)

/-- Witness for `race_cache_unique_keys` at a concrete schedule. -/
theorem race_cache_unique_keys_wit :
    uniqKeys (raceRun ⟨"a", "b", ⟨0, 0⟩, ⟨1, 1⟩⟩ (raceInit [])
      [false, true, false, true, false, true, false, true]).cache = true :=
  race_cache_unique_keys ⟨"a", "b", ⟨0, 0⟩, ⟨1, 1⟩⟩
    [false, true, false, true, false, true, false, true] (raceInit [])
    (by decide)

/-- C4 counterexample: a file whose probed track lacks a channel count
(all earlier stages succeeding) makes `measure` panic via `unwrap`
(main.rs:192) instead of returning a typed per-file failure. -/
theorem missing_channels_panics_cex :
    (measure glConst gbSome
        ⟨true, true, true, 0, true, none, some 44100, []⟩).2 = .panicked ∧
    ∀ site, (measure glConst gbSome
        ⟨true, true, true, 0, true, none, some 44100, []⟩).2 ≠ .fail site := by
  constructor
  · rfl
  · intro site
    simp [measure, glConst, gbSome]

/-- C4 (amended): for every input file whose probed track lacks a channel
count or a sample rate (after open, probe, track selection and decoder
creation succeed), `measure` panics (`unwrap`/`expect`,
main.rs:192-197), aborting the worker and with it the run, instead of
returning a typed per-file failure. -/
theorem missing_metadata_panics (gl : List Block → ℚ)
    (gbce : List Block → Option (Nat × ℚ)) (s : FileScript)
    (h1 : s.openOk = true) (h2 : s.probeOk = true) (h3 : s.hasTrack = true)
    (h4 : s.decoderOk = true)
    (h5 : s.channels = none ∨ s.sampleRate = none) :
    (measure gl gbce s).2 = .panicked := by
  rcases h5 with h5 | h5
  · simp [measure, h1, h2, h3, h4, h5]
  · cases hc : s.channels with
    | none => simp [measure, h1, h2, h3, h4, hc]
    | some c => simp [measure, h1, h2, h3, h4, hc, h5]

/-- Witness for `missing_metadata_panics`: missing sample rate. -/
theorem missing_metadata_panics_wit :
    (measure glConst gbSome
        ⟨true, true, true, 0, true, some 2, none, []⟩).2 = .panicked :=
  missing_metadata_panics glConst gbSome
    ⟨true, true, true, 0, true, some 2, none, []⟩ rfl rfl rfl rfl (Or.inr rfl)

/-- C6: when the decode loop is terminated early by a non-end-of-stream
I/O error or another fatal decode error, `measure` still computes its
result from exactly the blocks accumulated before the error, and returns
it provided the accumulator has gated data for them. -/
theorem partial_decode_still_measures (gl : List Block → ℚ)
    (gbce : List Block → Option (Nat × ℚ)) (s : FileScript)
    (pre post : List Packet) (p : Packet) (c r cnt : Nat) (e : ℚ)
    (ho : s.openOk = true) (hp : s.probeOk = true) (htr : s.hasTrack = true)
    (hd : s.decoderOk = true) (hch : s.channels = some c)
    (hr : s.sampleRate = some r)
    (hpk : s.packets = pre ++ p :: post)
    (hpre : ∀ q ∈ pre, breaksLoop s.trackId q = false)
    (hpt : p.trackId = s.trackId)
    (hres : p.res = .ioOther ∨ p.res = .otherErr)
    (hg : gbce (blocksOf s.trackId pre) = some (cnt, e)) :
    (measure gl gbce s).2 = .ok ⟨gl (blocksOf s.trackId pre), e⟩ := by
  have hacc : (runLoop s.trackId s.packets []).2 = blocksOf s.trackId pre := by
    rw [hpk, runLoop_acc_no_break s.trackId pre (p :: post) [] hpre,
      runLoop_break_at s.trackId p post
        (([] : List Block) ++ blocksOf s.trackId pre) hpt hres]
    simp
  simp [measure, ho, hp, htr, hd, hch, hr, hacc, hg]

/-- Witness for `partial_decode_still_measures`: one good block, then a
non-end-of-stream I/O error, then an unread block. -/
theorem partial_decode_still_measures_wit :
    (measure glConst gbSome
        ⟨true, true, true, 0, true, some 2, some 44100,
          [⟨0, .okBlock [1, 2]⟩, ⟨0, .ioOther⟩, ⟨0, .okBlock [3]⟩]⟩).2 =
      .ok ⟨glConst (blocksOf 0 [⟨0, .okBlock [1, 2]⟩]), 5⟩ :=
  partial_decode_still_measures glConst gbSome
    ⟨true, true, true, 0, true, some 2, some 44100,
      [⟨0, .okBlock [1, 2]⟩, ⟨0, .ioOther⟩, ⟨0, .okBlock [3]⟩]⟩
    [⟨0, .okBlock [1, 2]⟩] [⟨0, .okBlock [3]⟩] ⟨0, .ioOther⟩ 2 44100 3 5
    rfl rfl rfl rfl rfl rfl rfl (by decide) rfl (Or.inl rfl) rfl

/-- C8: the Target File Set is the single given path when it is a file;
exactly the direct children that are files with the `mp3` extension when
it is a directory; and a non-existing path aborts the run with the
path-not-found diagnostic, before any file is processed. -/
theorem target_file_set_resolution (gl : List Block → ℚ)
    (gbce : List Block → Option (Nat × ℚ)) (f e : MFile) (es : List MFile)
    (init : OutfileInit) (c : Option HMap)
    (hc : cacheOfInit init = some c) :
    resolveFiles (.filePath f) = some [f] ∧
    (e ∈ (resolveFiles (.dir es)).getD [] ↔
      e ∈ es ∧ e.isFile = true ∧ e.extension = some "mp3") ∧
    runMain gl gbce init .absent = [Ev.outLine .pathNotFound] := by
  refine ⟨rfl, ?_, ?_⟩
  · simp [resolveFiles, List.mem_filter, and_assoc]
  · simp [runMain, hc, resolveFiles]

/-- Witness for `target_file_set_resolution` at a concrete instance. -/
theorem target_file_set_resolution_wit :
    resolveFiles (.filePath okFile) = some [okFile] ∧
    (okFile ∈ (resolveFiles (.dir [okFile])).getD [] ↔
      okFile ∈ [okFile] ∧ okFile.isFile = true ∧
        okFile.extension = some "mp3") ∧
    runMain glConst gbSome .noOutfile .absent = [Ev.outLine .pathNotFound] :=
  target_file_set_resolution glConst gbSome okFile okFile [okFile]
    .noOutfile none rfl

/-- C10: a file whose path has no file stem, or whose stem is not valid
UTF-8, makes the worker panic while deriving the cache key
(`unwrap`s, main.rs:91): the worker aborts with no events — neither a
per-file failure line nor a skip line. -/
theorem bad_key_aborts_worker (gl : List Block → ℚ)
    (gbce : List Block → Option (Nat × ℚ)) (useCache : Bool) (i : Nat)
    (f : MFile) (st : HMap)
    (h : f.fileStem = none ∨ f.fileStem = some none) :
    fileKey f = none ∧ workerBody gl gbce useCache i f st = ([], st, true) := by
  have hk : fileKey f = none := by rcases h with h | h <;> simp [fileKey, h]
  exact ⟨hk, by simp [workerBody, hk]⟩

/-- Witness for `bad_key_aborts_worker`: a file whose stem is not valid
UTF-8. -/
theorem bad_key_aborts_worker_wit :
    fileKey ⟨some none, some "mp3", true, okScript⟩ = none ∧
    workerBody glConst gbSome true 0 ⟨some none, some "mp3", true, okScript⟩
      [] = ([], [], true) :=
  bad_key_aborts_worker glConst gbSome true 0
    ⟨some none, some "mp3", true, okScript⟩ [] (Or.inr rfl)

/-- Filtering the per-file lines of a trace of output-line events keeps
exactly the per-file lines. -/
theorem filter_outLine_ev (mls : List Line) :
    (mls.map Ev.outLine).filter isPerFileLineEv =
      (mls.filter isPerFileLine).map Ev.outLine := by
  induction mls with
  | nil => rfl
  | cons l t ih =>
    cases h : isPerFileLine l <;>
      simp [isPerFileLineEv, List.filter_cons, h, ih]

/-- C5 counterexample: a file that fails for lack of gated energy data
produces no output line at all — the whole run's trace has no line event
even though the file's outcome is a failure — refuting "exactly one line
per outcome". -/
theorem no_energy_failure_no_line_cex :
    runMain glConst gbNone .noOutfile (.filePath okFile) = [Ev.measureRun 0] ∧
    (measure glConst gbNone okFile.script).2 = .fail .noEnergy :=
  ⟨rfl, rfl⟩

/-- C5 (amended): every per-file outcome produces exactly one per-file
output line (the skip line, the result line, or the one pre-loop failure
diagnostic), except a failure for lack of gated energy data — and a panic
on missing channel/rate metadata — which produce none.  Lines printed from
inside the decode loop are per-packet diagnostics, not outcome lines. -/
theorem per_file_outcome_lines (gl : List Block → ℚ)
    (gbce : List Block → Option (Nat × ℚ)) (useCache : Bool) (i : Nat)
    (f : MFile) (st : HMap) (k : String)
    (hk : fileKey f = some k) :
    perFileLineCount (workerBody gl gbce useCache i f st).1 =
      (if useCache && containsKey k st then 1
       else
         match (measure gl gbce f.script).2 with
         | .ok _ => 1
         | .fail .noEnergy => 0
         | .fail _ => 1
         | .panicked => 0) := by
  have hN := measure_perFile_lines gl gbce f.script
  by_cases hc : useCache && containsKey k st
  · simp [workerBody, hk, hc, perFileLineCount, isPerFileLineEv,
      isPerFileLine]
  · cases hm : (measure gl gbce f.script).2 with
    | ok mv =>
      simp only [hm] at hN
      cases hu : useCache with
      | false =>
        simp [workerBody, hk, hc, hm, hu, perFileLineCount,
          List.filter_append, List.filter_cons, isPerFileLineEv,
          isPerFileLine, filter_outLine_ev, hN]
      | true =>
        by_cases hc2 : containsKey k st
        · exact absurd (by simp [hu, hc2]) hc
        · by_cases hi : i % 10 = 0 <;>
            simp [workerBody, hk, hc, hm, hu, hc2, hi, perFileLineCount,
              List.filter_append, List.filter_cons, isPerFileLineEv,
              isPerFileLine, filter_outLine_ev, hN]
    | fail site =>
      simp only [hm] at hN
      cases site <;>
        simp [workerBody, hk, hc, hm, perFileLineCount, List.filter_append,
          List.filter_cons, isPerFileLineEv, isPerFileLine,
          filter_outLine_ev, hN]
    | panicked =>
      simp only [hm] at hN
      simp [workerBody, hk, hc, hm, perFileLineCount, List.filter_append,
        List.filter_cons, isPerFileLineEv, isPerFileLine,
        filter_outLine_ev, hN]

/-- Witness for `per_file_outcome_lines`: a successfully measured file
produces exactly one per-file line. -/
theorem per_file_outcome_lines_wit :
    perFileLineCount (workerBody glConst gbSome false 0 okFile []).1 =
      (if false && containsKey "a" [] then 1
       else
         match (measure glConst gbSome okFile.script).2 with
         | .ok _ => 1
         | .fail .noEnergy => 0
         | .fail _ => 1
         | .panicked => 0) :=
  per_file_outcome_lines glConst gbSome false 0 okFile [] "a" rfl

/-- C7: when a cache is active and the run completes without a panic,
`main` appends exactly one final snapshot whose content is the final cache
state, and every measurement inserted during the run is bound, unchanged,
in that final content — regardless of which periodic (stride) snapshots
happened. -/
theorem final_snapshot_durable (gl : List Block → ℚ)
    (gbce : List Block → Option (Nat × ℚ)) (init : OutfileInit)
    (inp : InputPath) (c0 : HMap) (files : List MFile) (evs : List Ev)
    (fin : HMap)
    (hc : cacheOfInit init = some (some c0))
    (hres : resolveFiles inp = some files)
    (hrun : runFiles gl gbce true files 0 c0 = (evs, fin, false)) :
    runMain gl gbce init inp = evs ++ [Ev.savedSnap fin] ∧
    ∀ k m, Ev.inserted k m ∈ evs → lookupKey k fin = some m := by
  constructor
  · simp [runMain, hc, hres, hrun]
  · intro k m hm
    have hins := runFiles_inserted gl gbce true files 0 c0 k m
      (by rw [hrun]; exact hm)
    rwa [hrun] at hins

/-- Witness for `final_snapshot_durable`: a fresh cache and one measured
file; its inserted measurement is in the final snapshot. -/
theorem final_snapshot_durable_wit :
    runMain glConst gbSome .newOutfile (.filePath okFile) =
      [Ev.measureRun 0, Ev.inserted "a" ⟨-7, 5⟩,
        Ev.savedSnap [("a", ⟨-7, 5⟩)],
        Ev.outLine (.resultLine 0 "a" ⟨-7, 5⟩)] ++
        [Ev.savedSnap [("a", ⟨-7, 5⟩)]] ∧
    ∀ k m, Ev.inserted k m ∈
        [Ev.measureRun 0, Ev.inserted "a" ⟨-7, 5⟩,
          Ev.savedSnap [("a", ⟨-7, 5⟩)],
          Ev.outLine (.resultLine 0 "a" ⟨-7, 5⟩)] →
      lookupKey k [("a", ⟨-7, 5⟩)] = some m :=
  final_snapshot_durable glConst gbSome .newOutfile (.filePath okFile) []
    [okFile] _ _ rfl rfl rfl

/-- C9: the cache's key set grows monotonically: no worker step and no run
removes a key (a key present beforehand is present in the worker's
post-state and in the run's final map); every snapshot written during a
run contains every key present when the run started; every snapshot
written after an insert contains the inserted key; and an inserted
measurement stays bound, unchanged, in the final in-memory map. -/
theorem cache_keys_monotone (gl : List Block → ℚ)
    (gbce : List Block → Option (Nat × ℚ)) (useCache : Bool)
    (files : List MFile) (i : Nat) (f : MFile) (st : HMap)
    (k k' : String) (m : Measurement) (d : HMap)
    (hk : containsKey k st = true)
    (hd : Ev.savedSnap d ∈ (runFiles gl gbce useCache files i st).1)
    (hins : Ev.inserted k' m ∈ (runFiles gl gbce useCache files i st).1) :
    containsKey k (workerBody gl gbce useCache i f st).2.1 = true ∧
    containsKey k (runFiles gl gbce useCache files i st).2.1 = true ∧
    containsKey k d = true ∧
    snapshotsRespectInserts (runFiles gl gbce useCache files i st).1 = true ∧
    lookupKey k' (runFiles gl gbce useCache files i st).2.1 = some m :=
  ⟨workerBody_contains_mono gl gbce useCache i f st k hk,
   runFiles_contains_mono gl gbce useCache files i st k hk,
   runFiles_saved_pre_keys gl gbce useCache files i st k d hd hk,
   runFiles_respects gl gbce useCache files i st,
   runFiles_inserted gl gbce useCache files i st k' m hins⟩

/-- Witness for `cache_keys_monotone`: one preloaded key, one measured
file; the stride snapshot contains both the preloaded and the inserted
key. -/
theorem cache_keys_monotone_wit :
    containsKey "z" (workerBody glConst gbSome true 0 okFile
      [("z", ⟨0, 0⟩)]).2.1 = true ∧
    containsKey "z" (runFiles glConst gbSome true [okFile] 0
      [("z", ⟨0, 0⟩)]).2.1 = true ∧
    containsKey "z" [("z", ⟨0, 0⟩), ("a", ⟨-7, 5⟩)] = true ∧
    snapshotsRespectInserts (runFiles glConst gbSome true [okFile] 0
      [("z", ⟨0, 0⟩)]).1 = true ∧
    lookupKey "a" (runFiles glConst gbSome true [okFile] 0
      [("z", ⟨0, 0⟩)]).2.1 = some ⟨-7, 5⟩ :=
  cache_keys_monotone glConst gbSome true [okFile] 0 okFile
    [("z", ⟨0, 0⟩)] "z" "a" ⟨-7, 5⟩ [("z", ⟨0, 0⟩), ("a", ⟨-7, 5⟩)]
    (by decide) (by decide) (by decide)

end Loudness
